import Mathlib

/-!
Verification of the Input_Rec repository (S3 ES downloader / parser).

Shallow embedding of the Python sources:
  * `src/src/es_parser.py`  — `ESParser._write_ts_chunk`, `_flush_buffer`,
    `_process_single_es_file`, `process_files`.
  * `src/src/utils.py`      — `get_s3_path`, `get_file_duration`,
    `get_file_path_to_read`, `get_start_utc_from_filename`,
    `save_progress_state`, `load_progress_state`.
  * `src/src/s3_reader.py`  — `S3Reader._prepare_file_list`,
    `download_files_parallel` (final ordering behaviour).

Bytes are modelled as `Nat`, byte strings as `List Nat`, text as `List Char`.
File-system and network effects are modelled by passing the relevant data
(file contents, read/write outcomes) explicitly.
-/

namespace InputRec

/-- Header size constant `ES_HEADER_SIZE_BYTES = 27` from `es_parser.py`. -/
def ES_HEADER_SIZE_BYTES : Nat := 27

/-- Little-endian unsigned decode, modelling Python
`int.from_bytes(bytes, "little")`: the first byte is least significant. -/
def fromBytesLE (bs : List Nat) : Nat :=
  bs.foldr (fun b acc => b + 256 * acc) 0

/-- State of the buffered writer from `es_parser.py`:
`buf` models the used part of `self._write_buffer`
(`self._buffer_position` is `buf.length`), `out` models the bytes already
written through `self.output_file_handle`, and `written` models
`self.output_bytes_written`. -/
structure WriterState where
  buf : List Nat
  out : List Nat
  written : Nat
deriving DecidableEq, Repr

/-- Embedding of `ESParser._flush_buffer`: when the buffer is non-empty,
write it through the handle and reset the position. -/
def flushBuffer (w : WriterState) : WriterState :=
  if w.buf.length > 0 then
    { buf := [], out := w.out ++ w.buf, written := w.written + w.buf.length }
  else w

/-- Embedding of `ESParser._write_ts_chunk` on an open output handle:
flush when the payload would overflow the buffer, write oversized payloads
directly, otherwise copy into the buffer and flush when it becomes full.
The closed-handle branch of the source raises `RuntimeError` and is outside
this model (the handle is open for the whole of `process_files`). -/
def writeTsChunk (bufSize : Nat) (w : WriterState) (payload : List Nat) :
    WriterState :=
  let w1 := if payload.length + w.buf.length > bufSize then flushBuffer w else w
  if payload.length > bufSize then
    { w1 with out := w1.out ++ payload, written := w1.written + payload.length }
  else
    let w2 := { w1 with buf := w1.buf ++ payload }
    if bufSize ≤ w2.buf.length then flushBuffer w2 else w2

/-- Statistics and writer state of an `ESParser` instance
(`total_packets_processed`, `total_bytes_processed`,
`total_files_processed`, `total_files_skipped`, `total_files_failed`). -/
structure ESParserSt where
  writer : WriterState
  totalPackets : Nat
  totalBytes : Nat
  filesProcessed : Nat
  filesSkipped : Nat
  filesFailed : Nat
deriving DecidableEq, Repr

/-- Reason the record loop of `_process_single_es_file` stopped. -/
inductive StopReason where
  /-- the header read returned zero bytes (clean end of file) -/
  | eof
  /-- the header read returned a non-zero but incomplete byte count -/
  | truncatedHeader
  /-- the decoded payload-length field was negative -/
  | negativeSize
  /-- the payload read returned fewer bytes than the header demanded -/
  | truncatedPayload
deriving DecidableEq, Repr

/-- Loop body of `ESParser._process_single_es_file`, iterated over the
remaining bytes of the input file.  Each `f_in.read(k)` is modelled as
`take k` of the remaining bytes.  The `utc_ns` and `pcr_27mhz` header
fields are decoded by the source but unused (the analysis block is
commented out), so they are not carried here.  `fuel` bounds the number of
loop iterations; every continuing iteration consumes at least 27 bytes, so
`fuel = input.length` is always sufficient (see `processESGo_fuel`). -/
def processESGo (bufSize : Nat) : Nat → ESParserSt → List Nat →
    ESParserSt × StopReason
  | 0, st, _ => (st, .eof)
  | fuel + 1, st, input =>
    let header := input.take ES_HEADER_SIZE_BYTES
    if header.length = 0 then (st, .eof)
    else if header.length < ES_HEADER_SIZE_BYTES then (st, .truncatedHeader)
    else
      let payloadSize : Int := (fromBytesLE (header.drop 19) : Int)
      if payloadSize < 0 then (st, .negativeSize)
      else if payloadSize = 0 then
        processESGo bufSize fuel
          { st with totalPackets := st.totalPackets + 1,
                    totalBytes := st.totalBytes + ES_HEADER_SIZE_BYTES }
          (input.drop ES_HEADER_SIZE_BYTES)
      else
        let n := payloadSize.toNat
        let payload := (input.drop ES_HEADER_SIZE_BYTES).take n
        if payload.length < n then (st, .truncatedPayload)
        else
          processESGo bufSize fuel
            { st with writer := writeTsChunk bufSize st.writer payload,
                      totalPackets := st.totalPackets + 1,
                      totalBytes := st.totalBytes + (ES_HEADER_SIZE_BYTES + n) }
            (input.drop (ES_HEADER_SIZE_BYTES + n))

/-- Embedding of `ESParser._process_single_es_file` applied to the byte
contents of one input file.  The source returns `success = True` whenever
the record loop terminates by `break` or end of file; `success = False`
only arises from OS-level exceptions while opening/reading, which have no
counterpart in this byte-level model. -/
def processESFile (bufSize : Nat) (st : ESParserSt) (input : List Nat) :
    ESParserSt × StopReason :=
  processESGo bufSize input.length st input

/-- Encoding of one well-formed record: the 27-byte header followed by the
payload bytes. -/
def encodeRecord (r : List Nat × List Nat) : List Nat := r.1 ++ r.2

/-- Byte contents of an ES file made of the given records. -/
def encodeFile (rs : List (List Nat × List Nat)) : List Nat :=
  (rs.map encodeRecord).flatten

/-- Well-formed record list: every header is complete (27 bytes) and its
payload-length field (bytes 19..26, little-endian) equals the payload's
actual length. -/
def WellFormedES (rs : List (List Nat × List Nat)) : Prop :=
  ∀ r ∈ rs, r.1.length = ES_HEADER_SIZE_BYTES ∧
    fromBytesLE (r.1.drop 19) = r.2.length

instance (rs : List (List Nat × List Nat)) : Decidable (WellFormedES rs) :=
  inferInstanceAs (Decidable (∀ r ∈ rs, r.1.length = ES_HEADER_SIZE_BYTES ∧
    fromBytesLE (r.1.drop 19) = r.2.length))

/-- Per-record state update performed by the loop body of
`_process_single_es_file` on a complete record: a zero-length payload only
bumps the counters by one packet and 27 header bytes; otherwise the
payload is written through the buffered writer and counted. -/
def recStep (bufSize : Nat) (st : ESParserSt) (r : List Nat × List Nat) :
    ESParserSt :=
  if r.2.length = 0 then
    { st with totalPackets := st.totalPackets + 1,
              totalBytes := st.totalBytes + ES_HEADER_SIZE_BYTES }
  else
    { st with writer := writeTsChunk bufSize st.writer r.2,
              totalPackets := st.totalPackets + 1,
              totalBytes := st.totalBytes + (ES_HEADER_SIZE_BYTES + r.2.length) }

/-- State after consuming a list of complete records. -/
def afterRecords (bufSize : Nat) (st : ESParserSt)
    (rs : List (List Nat × List Nat)) : ESParserSt :=
  rs.foldl (recStep bufSize) st

/-- Loop of `ESParser.process_files` over the file list: a file present on
disk is parsed (`_process_single_es_file` always reports success in the
byte-level model, so `total_files_processed` is incremented and the file
is deleted when cleanup is enabled); a missing file increments
`total_files_skipped`. -/
def processFilesLoop (bufSize : Nat) (cleanup : Bool) :
    ESParserSt → List (String × List Nat) → List String →
    ESParserSt × List (String × List Nat)
  | st, disk, [] => (st, disk)
  | st, disk, f :: fs =>
    match disk.lookup f with
    | some content =>
      let st1 := (processESFile bufSize st content).1
      let st2 := { st1 with filesProcessed := st1.filesProcessed + 1 }
      let disk2 := if cleanup then disk.eraseP (fun kv => kv.1 == f) else disk
      processFilesLoop bufSize cleanup st2 disk2 fs
    | none =>
      processFilesLoop bufSize cleanup
        { st with filesSkipped := st.filesSkipped + 1 } disk fs

/-- Embedding of `ESParser.process_files`.  `outFile` is the output
artifact's prior contents (`none` when absent), `disk` maps input file
names to their byte contents.  An empty file list returns immediately
without touching the artifact.  Otherwise the artifact is opened once:
in append mode only when it exists and a resume state file was supplied
(`"ab"`), else truncated (`"wb"`); the loop runs and the write buffer is
flushed at the end. -/
def process_files (bufSize : Nat) (cleanup resumeRequested : Bool)
    (st : ESParserSt) (outFile : Option (List Nat))
    (disk : List (String × List Nat)) (files : List String) :
    ESParserSt × Option (List Nat) × List (String × List Nat) :=
  if files = [] then (st, outFile, disk)
  else
    let appendMode := outFile.isSome && resumeRequested
    let initContent := if appendMode then outFile.getD [] else []
    let w0 : WriterState :=
      { buf := st.writer.buf, out := initContent,
        written := if appendMode then initContent.length else st.writer.written }
    let st0 := { st with writer := w0 }
    let r := processFilesLoop bufSize cleanup st0 disk files
    let st2 := { r.1 with writer := flushBuffer r.1.writer }
    (st2, some st2.writer.out, r.2)

/-! ### Naming codec (`utils.py`) -/

/-- Decimal digit character for `d < 10` (models Python's decimal
formatting of one digit). -/
def digitChar : Nat → Char
  | 0 => '0' | 1 => '1' | 2 => '2' | 3 => '3' | 4 => '4'
  | 5 => '5' | 6 => '6' | 7 => '7' | 8 => '8' | 9 => '9'
  | _ => '0'

/-- Accumulator loop of decimal formatting: emit the digits of `n` most
significant first.  `fuel` bounds the recursion; `fuel > n` always
suffices since `n / 10` shrinks fast. -/
def natToDigitsAux : Nat → Nat → List Char → List Char
  | 0, _, acc => acc
  | fuel + 1, n, acc =>
    if n < 10 then digitChar n :: acc
    else natToDigitsAux fuel (n / 10) (digitChar (n % 10) :: acc)

/-- Decimal representation of a natural number, modelling Python's
`str(n)` / f-string formatting of a non-negative int. -/
def natToString (n : Nat) : List Char := natToDigitsAux (n + 1) n []

/-- Numeric value of a digit string (models Python `int(s)` on a string
of decimal digits). -/
def digitsVal (ds : List Char) : Nat :=
  ds.foldl (fun a c => 10 * a + (c.toNat - 48)) 0

/-- Deterministic embedding of the anchored regular expression
`(\d+)-(\d+)\.es$` used by `get_file_duration` and
`get_start_utc_from_filename`: a non-empty run of digits, a dash, a
non-empty run of digits, then exactly `.es` at the end.  Greedy `\d+`
cannot backtrack here because `-` and `.` are not digits, so taking the
longest digit run is faithful. -/
def matchStartEnd (s : List Char) : Option (Nat × Nat) :=
  let t1 := s.span (fun c => c.isDigit)
  match t1.2 with
  | '-' :: r2 =>
    if t1.1 = [] then none
    else
      let t2 := r2.span (fun c => c.isDigit)
      if t2.1 = [] then none
      else if t2.2 = ['.', 'e', 's'] then
        some (digitsVal t1.1, digitsVal t2.1)
      else none
  | _ => none

/-- Embedding of `os.path.basename`: the suffix after the last `/`. -/
def basename (s : List Char) : List Char :=
  ((s.reverse.takeWhile (fun c => c ≠ '/')).reverse)

/-- Embedding of `get_file_duration`: parse `start-end.es` from the
basename; return `end - start` if positive, else the default 4; return 4
when the pattern does not match.  (The source's `except ValueError`
branch is unreachable because the matched groups are digit strings.) -/
def get_file_duration (p : List Char) : Int :=
  match matchStartEnd (basename p) with
  | some (s, e) =>
    let duration : Int := (e : Int) - (s : Int)
    if duration > 0 then duration else 4
  | none => 4

/-- Embedding of `get_start_utc_from_filename`: parse `start-end.es` from
the basename and return the start epoch, or 0 when unparseable. -/
def get_start_utc_from_filename (p : List Char) : Nat :=
  match matchStartEnd (basename p) with
  | some (s, _) => s
  | none => 0

/-- Civil date (year, month, day) of a day count since 1970-01-01,
modelling the date computed by
`datetime.fromtimestamp(epoch, timezone.utc)` for non-negative epochs
(the standard proleptic-Gregorian civil-from-days algorithm). -/
def civilFromDays (z : Nat) : Nat × Nat × Nat :=
  let z1 := z + 719468
  let era := z1 / 146097
  let doe := z1 % 146097
  let yoe := (doe - doe / 1460 + doe / 36524 - doe / 146096) / 365
  let y := yoe + era * 400
  let doy := doe - (365 * yoe + yoe / 4 - yoe / 100)
  let mp := (5 * doy + 2) / 153
  let d := doy - (153 * mp + 2) / 5 + 1
  let m := if mp < 10 then mp + 3 else mp - 9
  (if m ≤ 2 then y + 1 else y, m, d)

/-- Two-digit zero-padded decimal, modelling `strftime` fields `%d`,
`%m` and `%H`. -/
def pad2 (n : Nat) : List Char :=
  if n < 10 then '0' :: natToString n else natToString n

/-- Date part of the path: `strftime("%d%m%Y")` (day-month-year). -/
def dateStrOf (startEpoch : Nat) : List Char :=
  let dmy := civilFromDays (startEpoch / 86400)
  pad2 dmy.2.2 ++ pad2 dmy.2.1 ++ natToString dmy.1

/-- Hour part of the path: `strftime("%H")` (zero-padded hour). -/
def hourStrOf (startEpoch : Nat) : List Char :=
  pad2 (startEpoch % 86400 / 3600)

/-- Embedding of `get_file_path_to_read`: align the instant down to the
nearest 4-second boundary within its hour, then format
`dateStr/hourStr/startEpoch-endEpoch.es` with `endEpoch = startEpoch+4`. -/
def get_file_path_to_read (baseUtc : Nat) : List Char :=
  let secondsPastHour := baseUtc % 3600
  let secondsIntoInterval := secondsPastHour % 4
  let intervalStart := baseUtc - secondsIntoInterval
  let startEpoch := intervalStart
  let endEpoch := startEpoch + 4
  dateStrOf startEpoch ++ '/' :: hourStrOf startEpoch ++ '/' ::
    natToString startEpoch ++ '-' :: natToString endEpoch ++ ['.', 'e', 's']

/-- Embedding of `get_s3_path`: append `/` to the prefix when its last
character is not already `/`, strip a single leading `/` from the
relative path, and concatenate. -/
def get_s3_path (pfx relPath : List Char) : List Char :=
  let p := if pfx.getLast? = some '/' then pfx else pfx ++ ['/']
  let r := if relPath.head? = some '/' then relPath.tail else relPath
  p ++ r

/-- Modelled from the spec's words for claim C8 (refinement target, not
source code): join the prefix and relative path with exactly one `/` at
the junction, discarding all trailing separators of the prefix and all
leading separators of the relative path. -/
def specJoinOneSep (pfx relPath : List Char) : List Char :=
  (pfx.reverse.dropWhile (fun c => c = '/')).reverse ++
    '/' :: relPath.dropWhile (fun c => c = '/')

/-! ### Manifest builder (`s3_reader.py`, `_prepare_file_list`) -/

/-- Loop of `S3Reader._prepare_file_list` over the time cursor, recording
relative paths in first-insertion order and deduplicating by membership
(the source's `expected_files` set; the `files_to_download_map` keys are
`get_s3_path(prefix, rel)` and `os.path.join(temp_dir, rel)`, both
injective images of the relative path).  The stride is
`get_file_duration` of the path just computed, clamped to at least 1.
`fuel` bounds the iterations; the cursor advances by at least 1 per
iteration, so `fuel = endS - current` suffices and reaching 0 coincides
with the loop condition failing. -/
def prepareGo (endS : Nat) : Nat → Nat → List (List Char) → List (List Char)
  | 0, _, acc => acc
  | fuel + 1, current, acc =>
    if current < endS then
      let rel := get_file_path_to_read current
      let acc1 := if rel ∈ acc then acc else acc ++ [rel]
      let d := get_file_duration rel
      let d1 : Int := if d ≤ 0 then 1 else d
      prepareGo endS fuel (current + d1.toNat) acc1
    else acc

/-- Embedding of `S3Reader._prepare_file_list`: the relative paths of the
manifest in insertion order for the window `[startS, endS)`. -/
def prepareFileList (startS endS : Nat) : List (List Char) :=
  prepareGo endS (endS - startS) startS []

/-! ### Retrieval ordering (`s3_reader.py`, `download_files_parallel`) -/

/-- Final ordering step of `S3Reader.download_files_parallel`:
`downloaded_files` is the locally-found files (manifest order) followed by
the successful downloads in completion order; an empty list is returned
as-is, otherwise the list is sorted by `get_start_utc_from_filename` with
a stable sort (Python `list.sort` is stable; any stable sort by the same
key computes the same function, modelled here by insertion sort). -/
def availableFiles (foundLocal completed : List (List Char)) :
    List (List Char) :=
  let files := foundLocal ++ completed
  if files = [] then []
  else files.insertionSort
    (fun a b => get_start_utc_from_filename a ≤ get_start_utc_from_filename b)

/-! ### Progress store (`utils.py`) -/

/-- Outcome of attempting to open and JSON-decode the state file, as seen
by `load_progress_state`: the three `except` arms of the source
(`FileNotFoundError`, `json.JSONDecodeError`, any other `Exception`) and
the successful arm carrying the decoded snapshot. -/
inductive ReadAttempt where
  | success (data : List (String × String))
  | fileNotFound
  | invalidJson
  | otherError
deriving DecidableEq

/-- Embedding of `load_progress_state`: the decoded snapshot on success
and the empty dictionary on every failure arm; no arm re-raises. -/
def load_progress_state : ReadAttempt → List (String × String)
  | .success d => d
  | .fileNotFound => []
  | .invalidJson => []
  | .otherError => []

/-- Outcome of the serialisation attempt inside `save_progress_state`. -/
inductive WriteAttempt where
  | writeOk
  | writeError
deriving DecidableEq

/-- Embedding of `save_progress_state`: `True` when the dump succeeded,
`False` on any exception; no arm re-raises. -/
def save_progress_state : WriteAttempt → Bool
  | .writeOk => true
  | .writeError => false

/-! ### Buffered-writer lemmas -/

/-- Bytes the buffered writer has accepted so far: everything already on
the artifact plus everything still sitting in the buffer. -/
def writerContent (w : WriterState) : List Nat := w.out ++ w.buf

theorem flushBuffer_out (w : WriterState) :
    (flushBuffer w).out = writerContent w := by
  unfold flushBuffer writerContent
  split
  · rfl
  · next h =>
    have : w.buf = [] := List.eq_nil_of_length_eq_zero (by omega)
    simp [this]

theorem flushBuffer_content (w : WriterState) :
    writerContent (flushBuffer w) = writerContent w := by
  unfold flushBuffer writerContent
  split
  · simp
  · rfl

theorem flushBuffer_buf (w : WriterState) : (flushBuffer w).buf = [] := by
  unfold flushBuffer
  split
  · rfl
  · next h => exact List.eq_nil_of_length_eq_zero (by omega)

theorem writeTsChunk_content (bufSize : Nat) (w : WriterState)
    (payload : List Nat) :
    writerContent (writeTsChunk bufSize w payload) =
      writerContent w ++ payload := by
  simp only [writeTsChunk]
  split_ifs <;>
    simp [writerContent, flushBuffer_content, flushBuffer_out, flushBuffer_buf]
  · omega

/-! ### Record-loop lemmas -/

theorem processESGo_fuel (bufSize : Nat) :
    ∀ (fuel fuel2 : Nat) (st : ESParserSt) (input : List Nat),
      input.length ≤ fuel → input.length ≤ fuel2 →
      processESGo bufSize fuel st input = processESGo bufSize fuel2 st input := by
  intro fuel
  induction fuel with
  | zero =>
    intro fuel2 st input h h2
    have : input = [] := List.eq_nil_of_length_eq_zero (by omega)
    subst this
    cases fuel2 with
    | zero => rfl
    | succ f => simp [processESGo, ES_HEADER_SIZE_BYTES]
  | succ fuel ih =>
    intro fuel2 st input h h2
    cases fuel2 with
    | zero =>
      have : input = [] := List.eq_nil_of_length_eq_zero (by omega)
      subst this
      simp [processESGo, ES_HEADER_SIZE_BYTES]
    | succ f2 =>
      simp only [processESGo]
      have hlen : (input.take ES_HEADER_SIZE_BYTES).length =
          min ES_HEADER_SIZE_BYTES input.length := List.length_take _ _
      split
      · rfl
      · split
        · rfl
        · next hne hge =>
          have hpos : 1 ≤ input.length := by
            rw [hlen] at hne
            simp only [ES_HEADER_SIZE_BYTES] at hne ⊢
            omega
          split
          · rfl
          · split
            · apply ih
              · have := List.length_drop ES_HEADER_SIZE_BYTES input
                simp only [ES_HEADER_SIZE_BYTES] at *
                omega
              · have := List.length_drop ES_HEADER_SIZE_BYTES input
                simp only [ES_HEADER_SIZE_BYTES] at *
                omega
            · split
              · rfl
              · apply ih
                · have := List.length_drop
                    (ES_HEADER_SIZE_BYTES +
                      (((fromBytesLE ((input.take ES_HEADER_SIZE_BYTES).drop 19) : Nat) : Int)).toNat) input
                  simp only [ES_HEADER_SIZE_BYTES] at *
                  omega
                · have := List.length_drop
                    (ES_HEADER_SIZE_BYTES +
                      (((fromBytesLE ((input.take ES_HEADER_SIZE_BYTES).drop 19) : Nat) : Int)).toNat) input
                  simp only [ES_HEADER_SIZE_BYTES] at *
                  omega

theorem processESGo_eq_file (bufSize fuel : Nat) (st : ESParserSt)
    (input : List Nat) (h : input.length ≤ fuel) :
    processESGo bufSize fuel st input = processESFile bufSize st input :=
  processESGo_fuel bufSize fuel input.length st input h (Nat.le_refl _)

theorem processESFile_nil (bufSize : Nat) (st : ESParserSt) :
    processESFile bufSize st [] = (st, .eof) := rfl

theorem processESFile_step (bufSize : Nat) (st : ESParserSt)
    (hdr payload rest : List Nat) (hh : hdr.length = ES_HEADER_SIZE_BYTES)
    (hf : fromBytesLE (hdr.drop 19) = payload.length) :
    processESFile bufSize st (hdr ++ (payload ++ rest)) =
      processESFile bufSize (recStep bufSize st (hdr, payload)) rest := by
  set input := hdr ++ (payload ++ rest) with hinput
  have hlen : input.length =
      ES_HEADER_SIZE_BYTES + payload.length + rest.length := by
    simp [hinput, hh]
    omega
  obtain ⟨m, hm⟩ : ∃ m, input.length = m + 1 :=
    ⟨input.length - 1, by simp [ES_HEADER_SIZE_BYTES] at hlen; omega⟩
  rw [processESFile, hm]
  have htake : input.take ES_HEADER_SIZE_BYTES = hdr := by
    rw [hinput, ← hh]
    exact List.take_left hdr (payload ++ rest)
  have hdrop : input.drop ES_HEADER_SIZE_BYTES = payload ++ rest := by
    rw [hinput, ← hh]
    exact List.drop_left hdr (payload ++ rest)
  simp only [processESGo, htake, hh, hf]
  rw [if_neg (by simp [ES_HEADER_SIZE_BYTES]),
      if_neg (by simp [ES_HEADER_SIZE_BYTES]),
      if_neg (by simp)]
  by_cases hz : payload.length = 0
  · have hpnil : payload = [] := List.eq_nil_of_length_eq_zero hz
    rw [if_pos (by simp [hz]), hdrop, hpnil, List.nil_append]
    rw [processESGo_eq_file bufSize m _ rest
      (by simp [ES_HEADER_SIZE_BYTES] at hlen; omega)]
    simp [recStep, hz]
  · rw [if_neg (by simpa using hz)]
    have htoNat : ((payload.length : Int)).toNat = payload.length := rfl
    simp only [htoNat, hdrop]
    have htakep : (payload ++ rest).take payload.length = payload :=
      List.take_left payload rest
    rw [htakep, if_neg (by omega)]
    have hdrop2 : input.drop (ES_HEADER_SIZE_BYTES + payload.length) = rest := by
      have : input = (hdr ++ payload) ++ rest := by simp [hinput]
      rw [this]
      exact List.drop_left' (by simp [hh])
    rw [hdrop2]
    rw [processESGo_eq_file bufSize m _ rest
      (by simp [ES_HEADER_SIZE_BYTES] at hlen; omega)]
    simp [recStep, hz]

theorem processESFile_truncated_payload (bufSize : Nat) (st : ESParserSt)
    (hdr part : List Nat) (n : Nat) (hh : hdr.length = ES_HEADER_SIZE_BYTES)
    (hf : fromBytesLE (hdr.drop 19) = n) (hp : part.length < n) :
    processESFile bufSize st (hdr ++ part) = (st, .truncatedPayload) := by
  set input := hdr ++ part with hinput
  have hlen : input.length = ES_HEADER_SIZE_BYTES + part.length := by
    simp [hinput, hh]
  obtain ⟨m, hm⟩ : ∃ m, input.length = m + 1 :=
    ⟨input.length - 1, by simp [ES_HEADER_SIZE_BYTES] at hlen; omega⟩
  rw [processESFile, hm]
  have htake : input.take ES_HEADER_SIZE_BYTES = hdr := by
    rw [hinput, ← hh]
    exact List.take_left hdr part
  have hdrop : input.drop ES_HEADER_SIZE_BYTES = part := by
    rw [hinput, ← hh]
    exact List.drop_left hdr part
  simp only [processESGo, htake, hh, hf]
  rw [if_neg (by simp [ES_HEADER_SIZE_BYTES]),
      if_neg (by simp [ES_HEADER_SIZE_BYTES]),
      if_neg (by simp),
      if_neg (by simp; omega)]
  have htoNat : ((n : Int)).toNat = n := rfl
  simp only [htoNat, hdrop]
  rw [List.take_of_length_le (by omega), if_pos hp]

theorem processESFile_records (bufSize : Nat) :
    ∀ (rs : List (List Nat × List Nat)) (st : ESParserSt) (suffix : List Nat),
      WellFormedES rs →
      processESFile bufSize st (encodeFile rs ++ suffix) =
        processESFile bufSize (afterRecords bufSize st rs) suffix := by
  intro rs
  induction rs with
  | nil => intro st suffix _; simp [encodeFile, afterRecords]
  | cons r rs ih =>
    intro st suffix hwf
    obtain ⟨hh, hf⟩ := hwf r (List.mem_cons_self r rs)
    have hrest : WellFormedES rs := fun q hq => hwf q (List.mem_cons_of_mem r hq)
    have hshape : encodeFile (r :: rs) ++ suffix =
        r.1 ++ (r.2 ++ (encodeFile rs ++ suffix)) := by
      simp [encodeFile, encodeRecord]
    rw [hshape, processESFile_step bufSize st r.1 r.2 _ hh hf, ih _ _ hrest]
    rfl

theorem afterRecords_counters (bufSize : Nat) :
    ∀ (rs : List (List Nat × List Nat)) (st : ESParserSt),
      (afterRecords bufSize st rs).totalPackets = st.totalPackets + rs.length ∧
      (afterRecords bufSize st rs).totalBytes = st.totalBytes +
        (rs.map (fun q => ES_HEADER_SIZE_BYTES + q.2.length)).sum ∧
      (afterRecords bufSize st rs).filesProcessed = st.filesProcessed ∧
      (afterRecords bufSize st rs).filesSkipped = st.filesSkipped ∧
      (afterRecords bufSize st rs).filesFailed = st.filesFailed := by
  intro rs
  induction rs with
  | nil => intro st; simp [afterRecords]
  | cons r rs ih =>
    intro st
    have hstep : afterRecords bufSize st (r :: rs) =
        afterRecords bufSize (recStep bufSize st r) rs := rfl
    rw [hstep]
    obtain ⟨h1, h2, h3, h4, h5⟩ := ih (recStep bufSize st r)
    refine ⟨?_, ?_, ?_, ?_, ?_⟩ <;>
      simp [h1, h2, h3, h4, h5, recStep] <;> split <;> simp_all <;> omega

theorem afterRecords_content (bufSize : Nat) :
    ∀ (rs : List (List Nat × List Nat)) (st : ESParserSt),
      writerContent (afterRecords bufSize st rs).writer =
        writerContent st.writer ++ (rs.map Prod.snd).flatten := by
  intro rs
  induction rs with
  | nil => intro st; simp [afterRecords]
  | cons r rs ih =>
    intro st
    have hstep : afterRecords bufSize st (r :: rs) =
        afterRecords bufSize (recStep bufSize st r) rs := rfl
    rw [hstep, ih]
    unfold recStep
    split
    · next hz =>
      have : r.2 = [] := List.eq_nil_of_length_eq_zero hz
      simp [this]
    · simp [writeTsChunk_content]

/-- C1.  For a well-formed ES input file made of records `rs`
(complete 27-byte headers whose payload-length fields equal the actual
payload lengths), `_process_single_es_file` stops with a clean end of
file, delivers exactly the concatenation of the payloads to the buffered
writer (so after the final flush exactly those bytes follow the prior
output), increments `total_packets_processed` by the record count, and
increments `total_bytes_processed` by the sum of `27 + len(payload)`
over the records; a zero-length payload record is counted with its 27
header bytes only and contributes no output bytes. -/
theorem demux_wellformed_file (bufSize : Nat) (st : ESParserSt)
    (rs : List (List Nat × List Nat)) (hwf : WellFormedES rs) :
    ((processESFile bufSize st (encodeFile rs)).2 = .eof) ∧
    (processESFile bufSize st (encodeFile rs)).1.totalPackets =
      st.totalPackets + rs.length ∧
    (processESFile bufSize st (encodeFile rs)).1.totalBytes =
      st.totalBytes + (rs.map (fun q => ES_HEADER_SIZE_BYTES + q.2.length)).sum ∧
    writerContent (processESFile bufSize st (encodeFile rs)).1.writer =
      writerContent st.writer ++ (rs.map Prod.snd).flatten ∧
    (flushBuffer (processESFile bufSize st (encodeFile rs)).1.writer).out =
      writerContent st.writer ++ (rs.map Prod.snd).flatten := by
  have hrun : processESFile bufSize st (encodeFile rs) =
      (afterRecords bufSize st rs, .eof) := by
    have := processESFile_records bufSize rs st [] hwf
    rw [List.append_nil] at this
    rw [this, processESFile_nil]
  rw [hrun]
  obtain ⟨h1, h2, _, _, _⟩ := afterRecords_counters bufSize rs st
  exact ⟨rfl, h1, h2, afterRecords_content bufSize rs st,
    by rw [flushBuffer_out, afterRecords_content]⟩

/-- Sample 27-byte record header whose payload-length field (bytes
19..26, little-endian) holds `n`, for `n < 256`. -/
def mkHeader (n : Nat) : List Nat :=
  [1, 0, 0] ++ List.replicate 16 0 ++ [n, 0, 0, 0, 0, 0, 0, 0]

theorem demux_wellformed_file_witness :
    WellFormedES [(mkHeader 2, [9, 9]), (mkHeader 0, [])] ∧
    (processESFile 1024 ⟨⟨[], [], 0⟩, 0, 0, 0, 0, 0⟩
      (encodeFile [(mkHeader 2, [9, 9]), (mkHeader 0, [])])).1.totalPackets =
      0 + 2 :=
  ⟨by decide,
    (demux_wellformed_file 1024 ⟨⟨[], [], 0⟩, 0, 0, 0, 0, 0⟩
      [(mkHeader 2, [9, 9]), (mkHeader 0, [])] (by decide)).2.1⟩

/-- C3.  If a file consists of well-formed records `rs` followed by a
complete header announcing `n` payload bytes but only `part.length < n`
bytes remain, parsing stops with a truncated payload before any write
for the incomplete record: the writer receives exactly the payloads of
`rs` and the packet counter counts exactly `rs`. -/
theorem truncated_payload_exact_output (bufSize : Nat) (st : ESParserSt)
    (rs : List (List Nat × List Nat)) (hdr part : List Nat) (n : Nat)
    (hwf : WellFormedES rs) (hh : hdr.length = ES_HEADER_SIZE_BYTES)
    (hf : fromBytesLE (hdr.drop 19) = n) (hp : part.length < n) :
    ((processESFile bufSize st (encodeFile rs ++ (hdr ++ part))).2 =
      .truncatedPayload) ∧
    writerContent
        (processESFile bufSize st (encodeFile rs ++ (hdr ++ part))).1.writer =
      writerContent st.writer ++ (rs.map Prod.snd).flatten ∧
    (processESFile bufSize st (encodeFile rs ++ (hdr ++ part))).1.totalPackets =
      st.totalPackets + rs.length := by
  rw [processESFile_records bufSize rs st (hdr ++ part) hwf,
    processESFile_truncated_payload bufSize _ hdr part n hh hf hp]
  exact ⟨rfl, afterRecords_content bufSize rs st,
    (afterRecords_counters bufSize rs st).1⟩

theorem truncated_payload_exact_output_witness :
    WellFormedES [(mkHeader 2, [9, 9])] ∧
    (mkHeader 5).length = ES_HEADER_SIZE_BYTES ∧
    fromBytesLE ((mkHeader 5).drop 19) = 5 ∧
    ([1, 2, 3] : List Nat).length < 5 ∧
    (processESFile 1024 ⟨⟨[], [], 0⟩, 0, 0, 0, 0, 0⟩
      (encodeFile [(mkHeader 2, [9, 9])] ++ (mkHeader 5 ++ [1, 2, 3]))).2 =
      .truncatedPayload :=
  ⟨by decide, by decide, by decide, by decide,
    (truncated_payload_exact_output 1024 ⟨⟨[], [], 0⟩, 0, 0, 0, 0, 0⟩
      [(mkHeader 2, [9, 9])] (mkHeader 5) [1, 2, 3] 5
      (by decide) (by decide) (by decide) (by decide)).1⟩

theorem processESGo_ne_negativeSize (bufSize : Nat) :
    ∀ (fuel : Nat) (st : ESParserSt) (input : List Nat),
      (processESGo bufSize fuel st input).2 ≠ .negativeSize := by
  intro fuel
  induction fuel with
  | zero => intro st input; simp [processESGo]
  | succ fuel ih =>
    intro st input
    simp only [processESGo]
    split
    · simp
    · split
      · simp
      · split
        · next h => exact absurd h (by omega)
        · split
          · exact ih _ _
          · split
            · simp
            · exact ih _ _

/-- C9.  The payload-length field is decoded with an unsigned
little-endian conversion, so its value is never negative, and the record
loop of `_process_single_es_file` can never stop with the
negative-payload-size reason on any input whatsoever. -/
theorem negative_payload_size_unreachable (bufSize : Nat) (st : ESParserSt)
    (input : List Nat) :
    (0 : Int) ≤
      (fromBytesLE ((input.take ES_HEADER_SIZE_BYTES).drop 19) : Int) ∧
    (processESFile bufSize st input).2 ≠ .negativeSize :=
  ⟨Int.natCast_nonneg _, processESGo_ne_negativeSize bufSize _ st input⟩

/-- C10.  `process_files` called with an empty file list returns before
opening, truncating or creating the output artifact: the artifact's
prior contents (or absence), the disk, and every statistics field are
returned unchanged. -/
theorem process_files_empty_noop (bufSize : Nat) (cleanup resumeRequested : Bool)
    (st : ESParserSt) (outFile : Option (List Nat))
    (disk : List (String × List Nat)) :
    process_files bufSize cleanup resumeRequested st outFile disk [] =
      (st, outFile, disk) := by
  simp [process_files]

theorem processESGo_preserves (bufSize : Nat) :
    ∀ (fuel : Nat) (st : ESParserSt) (input : List Nat),
      (processESGo bufSize fuel st input).1.filesProcessed = st.filesProcessed ∧
      (processESGo bufSize fuel st input).1.filesSkipped = st.filesSkipped ∧
      (processESGo bufSize fuel st input).1.filesFailed = st.filesFailed ∧
      ∃ ext, writerContent (processESGo bufSize fuel st input).1.writer =
        writerContent st.writer ++ ext := by
  intro fuel
  induction fuel with
  | zero => intro st input; exact ⟨rfl, rfl, rfl, [], by simp [processESGo]⟩
  | succ fuel ih =>
    intro st input
    simp only [processESGo]
    split
    · exact ⟨rfl, rfl, rfl, [], by simp⟩
    · split
      · exact ⟨rfl, rfl, rfl, [], by simp⟩
      · split
        · exact ⟨rfl, rfl, rfl, [], by simp⟩
        · split
          · exact ih _ _
          · split
            · exact ⟨rfl, rfl, rfl, [], by simp⟩
            · obtain ⟨h1, h2, h3, ext, hext⟩ := ih _ _
              refine ⟨h1, h2, h3,
                (input.drop ES_HEADER_SIZE_BYTES).take
                  (Int.toNat
                    (fromBytesLE ((input.take ES_HEADER_SIZE_BYTES).drop 19) : Int))
                  ++ ext, ?_⟩
              exact hext.trans (by simp [writeTsChunk_content, List.append_assoc])

/-- C2 counterexample.  A file whose first header read yields one byte
(a non-zero but incomplete count) is counted by `process_files` as
processed, not failed, and is deleted from disk when cleanup is enabled,
contradicting the claim that such a file increments
`total_files_failed` and is retained on disk. -/
theorem truncated_file_counted_processed_cex :
    (processESFile 1024 ⟨⟨[], [], 0⟩, 0, 0, 0, 0, 0⟩ [1]).2 =
      .truncatedHeader ∧
    (process_files 1024 true false ⟨⟨[], [], 0⟩, 0, 0, 0, 0, 0⟩ none
      [("f", [1])] ["f"]).1.filesFailed = 0 ∧
    (process_files 1024 true false ⟨⟨[], [], 0⟩, 0, 0, 0, 0, 0⟩ none
      [("f", [1])] ["f"]).1.filesProcessed = 1 ∧
    (process_files 1024 true false ⟨⟨[], [], 0⟩, 0, 0, 0, 0, 0⟩ none
      [("f", [1])] ["f"]).2.2 = [] := by
  decide

/-- C2 amended.  A file whose parse stops on a truncated header or a
truncated payload is counted by the `process_files` loop as processed
(`total_files_processed` is incremented and `total_files_failed` is
unchanged), the output already written is kept (the writer's content is
only ever extended), and the file's disk entry is erased when cleanup is
enabled. -/
theorem truncated_file_counted_processed (bufSize : Nat) (st : ESParserSt)
    (f : String) (content : List Nat) (disk : List (String × List Nat))
    (hdisk : disk.lookup f = some content)
    (_hstop : (processESFile bufSize st content).2 = .truncatedHeader ∨
      (processESFile bufSize st content).2 = .truncatedPayload) :
    (processFilesLoop bufSize true st disk [f]).1.filesProcessed =
      st.filesProcessed + 1 ∧
    (processFilesLoop bufSize true st disk [f]).1.filesFailed =
      st.filesFailed ∧
    (processFilesLoop bufSize true st disk [f]).2 =
      disk.eraseP (fun kv => kv.1 == f) ∧
    ∃ ext, writerContent (processFilesLoop bufSize true st disk [f]).1.writer =
      writerContent st.writer ++ ext := by
  obtain ⟨h1, h2, h3, ext, hext⟩ :=
    processESGo_preserves bufSize content.length st content
  simp only [processFilesLoop, hdisk]
  refine ⟨?_, ?_, rfl, ext, ?_⟩
  · simpa [processESFile] using h1
  · simpa [processESFile] using h3
  · simpa [processESFile] using hext

theorem truncated_file_counted_processed_witness :
    ([("f", [1])] : List (String × List Nat)).lookup "f" = some [1] ∧
    ((processESFile 1024 ⟨⟨[], [], 0⟩, 0, 0, 0, 0, 0⟩ [1]).2 =
        .truncatedHeader ∨
      (processESFile 1024 ⟨⟨[], [], 0⟩, 0, 0, 0, 0, 0⟩ [1]).2 =
        .truncatedPayload) ∧
    (processFilesLoop 1024 true ⟨⟨[], [], 0⟩, 0, 0, 0, 0, 0⟩
      [("f", [1])] ["f"]).1.filesProcessed = 0 + 1 :=
  ⟨by decide, by decide,
    (truncated_file_counted_processed 1024 ⟨⟨[], [], 0⟩, 0, 0, 0, 0, 0⟩
      "f" [1] [("f", [1])] (by decide) (by decide)).1⟩

/-! ### Decimal formatting and parsing lemmas -/

theorem natToDigitsAux_append :
    ∀ (fuel n : Nat) (acc : List Char),
      natToDigitsAux fuel n acc = natToDigitsAux fuel n [] ++ acc := by
  intro fuel
  induction fuel with
  | zero => intro n acc; simp [natToDigitsAux]
  | succ fuel ih =>
    intro n acc
    simp only [natToDigitsAux]
    split
    · rfl
    · rw [ih (n / 10) (digitChar (n % 10) :: acc),
        ih (n / 10) [digitChar (n % 10)]]
      simp

theorem digitsVal_foldl (l : List Char) :
    ∀ a : Nat, l.foldl (fun x c => 10 * x + (c.toNat - 48)) a =
      a * 10 ^ l.length + digitsVal l := by
  induction l with
  | nil => intro a; simp [digitsVal]
  | cons c l ih =>
    intro a
    have h1 : digitsVal (c :: l) =
        (c.toNat - 48) * 10 ^ l.length + digitsVal l := by
      simp only [digitsVal, List.foldl_cons]
      rw [ih (10 * 0 + (c.toNat - 48))]
      simp [digitsVal]
    simp only [List.foldl_cons, List.length_cons]
    rw [ih (10 * a + (c.toNat - 48)), h1]
    ring

theorem digitsVal_append (xs ys : List Char) :
    digitsVal (xs ++ ys) = digitsVal xs * 10 ^ ys.length + digitsVal ys := by
  simp only [digitsVal, List.foldl_append]
  rw [digitsVal_foldl ys (List.foldl _ 0 xs)]
  rfl

theorem digitChar_spec (d : Nat) (hd : d < 10) :
    (digitChar d).toNat - 48 = d ∧ (digitChar d).isDigit = true ∧
    digitChar d ≠ '/' ∧ digitChar d ≠ '-' ∧ digitChar d ≠ '.' := by
  interval_cases d <;> exact ⟨by decide, by decide, by decide, by decide, by decide⟩

theorem natToDigitsAux_spec :
    ∀ (fuel n : Nat), n < fuel →
      digitsVal (natToDigitsAux fuel n []) = n ∧
      (∀ c ∈ natToDigitsAux fuel n [], c.isDigit = true) ∧
      natToDigitsAux fuel n [] ≠ [] := by
  intro fuel
  induction fuel with
  | zero => intro n h; omega
  | succ fuel ih =>
    intro n h
    simp only [natToDigitsAux]
    split
    · next hlt =>
      obtain ⟨hval, hdig, _, _, _⟩ := digitChar_spec n hlt
      refine ⟨?_, ?_, by simp⟩
      · simp [digitsVal, hval]
      · intro c hc
        simp only [List.mem_singleton] at hc
        subst hc
        exact hdig
    · next hge =>
      have h10 : 10 ≤ n := by omega
      have hdiv : n / 10 < fuel := by
        have : n / 10 < n := Nat.div_lt_self (by omega) (by norm_num)
        omega
      obtain ⟨hval, hdig, hne⟩ := ih (n / 10) hdiv
      obtain ⟨hmval, hmdig, _, _, _⟩ :=
        digitChar_spec (n % 10) (Nat.mod_lt _ (by norm_num))
      rw [natToDigitsAux_append]
      refine ⟨?_, ?_, by simp⟩
      · rw [digitsVal_append, hval]
        have : digitsVal [digitChar (n % 10)] = n % 10 := by
          simp [digitsVal, hmval]
        rw [this]
        simp
        omega
      · intro c hc
        rcases List.mem_append.mp hc with hc | hc
        · exact hdig c hc
        · simp only [List.mem_singleton] at hc
          subst hc
          exact hmdig

theorem natToString_val (n : Nat) : digitsVal (natToString n) = n :=
  (natToDigitsAux_spec (n + 1) n (Nat.lt_succ_self n)).1

theorem natToString_digits (n : Nat) :
    ∀ c ∈ natToString n, c.isDigit = true :=
  (natToDigitsAux_spec (n + 1) n (Nat.lt_succ_self n)).2.1

theorem natToString_ne_nil (n : Nat) : natToString n ≠ [] :=
  (natToDigitsAux_spec (n + 1) n (Nat.lt_succ_self n)).2.2

theorem isDigit_ne_special (c : Char) (h : c.isDigit = true) :
    c ≠ '/' ∧ c ≠ '-' ∧ c ≠ '.' := by
  refine ⟨?_, ?_, ?_⟩ <;> intro hc <;> subst hc <;> simp at h

/-! ### takeWhile / dropWhile / span / basename lemmas -/

theorem takeWhile_dropWhile_append (p : Char → Bool) :
    ∀ (xs ys : List Char), (∀ x ∈ xs, p x = true) →
      (∀ y, ys.head? = some y → p y = false) →
      (xs ++ ys).takeWhile p = xs ∧ (xs ++ ys).dropWhile p = ys := by
  intro xs
  induction xs with
  | nil =>
    intro ys _ hys
    cases ys with
    | nil => simp
    | cons y t =>
      have := hys y rfl
      simp [List.takeWhile, List.dropWhile, this]
  | cons x xs ih =>
    intro ys hxs hys
    have hx : p x = true := hxs x (List.mem_cons_self x xs)
    obtain ⟨h1, h2⟩ := ih ys (fun z hz => hxs z (List.mem_cons_of_mem x hz)) hys
    simp [List.takeWhile, List.dropWhile, hx, h1, h2]

theorem basename_of_append (pre tail : List Char)
    (htail : ∀ c ∈ tail, c ≠ '/') :
    basename (pre ++ '/' :: tail) = tail := by
  unfold basename
  have hrev : (pre ++ '/' :: tail).reverse =
      tail.reverse ++ '/' :: pre.reverse := by
    simp
  rw [hrev]
  have := (takeWhile_dropWhile_append (fun c => decide (c ≠ '/'))
    tail.reverse ('/' :: pre.reverse)
    (fun x hx => by
      simpa using htail x (List.mem_reverse.mp hx))
    (fun y hy => by
      simp only [List.head?_cons, Option.some.injEq] at hy
      subst hy
      simp)).1
  rw [this, List.reverse_reverse]

theorem basename_no_slash (tail : List Char) (htail : ∀ c ∈ tail, c ≠ '/') :
    basename tail = tail := by
  unfold basename
  have : tail.reverse.takeWhile (fun c => decide (c ≠ '/')) = tail.reverse := by
    have := (takeWhile_dropWhile_append (fun c => decide (c ≠ '/'))
      tail.reverse []
      (fun x hx => by simpa using htail x (List.mem_reverse.mp hx))
      (fun y hy => by simp at hy)).1
    simpa using this
  rw [this, List.reverse_reverse]

/-! ### Parsing the canonical file name -/

theorem matchStartEnd_canonical (s e : Nat) :
    matchStartEnd (natToString s ++ '-' :: (natToString e ++ ['.', 'e', 's'])) =
      some (s, e) := by
  unfold matchStartEnd
  have hspan1 := takeWhile_dropWhile_append (fun c => c.isDigit)
    (natToString s) ('-' :: (natToString e ++ ['.', 'e', 's']))
    (natToString_digits s)
    (fun y hy => by
      simp only [List.head?_cons, Option.some.injEq] at hy
      subst hy
      decide)
  have hspan2 := takeWhile_dropWhile_append (fun c => c.isDigit)
    (natToString e) ['.', 'e', 's']
    (natToString_digits e)
    (fun y hy => by
      simp only [List.head?_cons, Option.some.injEq] at hy
      subst hy
      decide)
  rw [List.span_eq_take_drop, hspan1.1, hspan1.2]
  simp only []
  rw [if_neg (natToString_ne_nil s), List.span_eq_take_drop,
    hspan2.1, hspan2.2, if_neg (natToString_ne_nil e), if_pos rfl,
    natToString_val, natToString_val]

theorem canonical_tail_no_slash (s e : Nat) :
    ∀ c ∈ natToString s ++ '-' :: (natToString e ++ ['.', 'e', 's']),
      c ≠ '/' := by
  intro c hc
  rcases List.mem_append.mp hc with hc | hc
  · exact (isDigit_ne_special c (natToString_digits s c hc)).1
  · rcases List.mem_cons.mp hc with hc | hc
    · subst hc; decide
    · rcases List.mem_append.mp hc with hc | hc
      · exact (isDigit_ne_special c (natToString_digits e c hc)).1
      · fin_cases hc <;> decide

theorem basename_path (t : Nat) :
    basename (get_file_path_to_read t) =
      natToString (t - t % 3600 % 4) ++ '-' ::
        (natToString (t - t % 3600 % 4 + 4) ++ ['.', 'e', 's']) := by
  have hshape : get_file_path_to_read t =
      (dateStrOf (t - t % 3600 % 4) ++ '/' :: hourStrOf (t - t % 3600 % 4)) ++
        '/' :: (natToString (t - t % 3600 % 4) ++ '-' ::
          (natToString (t - t % 3600 % 4 + 4) ++ ['.', 'e', 's'])) := by
    simp [get_file_path_to_read]
  rw [hshape]
  exact basename_of_append _ _ (canonical_tail_no_slash _ _)

theorem get_start_of_match (p : List Char) (s e : Nat)
    (h : matchStartEnd (basename p) = some (s, e)) :
    get_start_utc_from_filename p = s := by
  unfold get_start_utc_from_filename
  rw [h]

theorem get_duration_of_match (p : List Char) (s e : Nat)
    (h : matchStartEnd (basename p) = some (s, e)) :
    get_file_duration p =
      (if (e : Int) - (s : Int) > 0 then (e : Int) - (s : Int) else 4) := by
  unfold get_file_duration
  rw [h]

theorem path_match (t : Nat) :
    matchStartEnd (basename (get_file_path_to_read t)) =
      some (t - t % 3600 % 4, t - t % 3600 % 4 + 4) := by
  rw [basename_path, matchStartEnd_canonical]

theorem start_utc_of_path (t : Nat) :
    get_start_utc_from_filename (get_file_path_to_read t) =
      t - t % 3600 % 4 :=
  get_start_of_match _ _ _ (path_match t)

theorem duration_of_path (t : Nat) :
    get_file_duration (get_file_path_to_read t) = 4 := by
  rw [get_duration_of_match _ _ _ (path_match t)]
  have h4 : ((t - t % 3600 % 4 + 4 : Nat) : Int) -
      ((t - t % 3600 % 4 : Nat) : Int) = 4 := by
    push_cast
    ring
  rw [h4]
  norm_num

/-- C4.  `get_file_path_to_read t` encodes the 4-second-aligned start
epoch `t - (t mod 3600 mod 4)` and the end epoch `start + 4`, formatted
as `dateStr/hourStr/start-end.es` with a day-month-year date string and
a zero-padded hour string; parsing the name back recovers the start
epoch, and `get_file_duration` of the generated path recovers the
default interval length 4. -/
theorem path_roundtrip (t : Nat) :
    get_file_path_to_read t =
      dateStrOf (t - t % 3600 % 4) ++ '/' :: hourStrOf (t - t % 3600 % 4) ++
        '/' :: natToString (t - t % 3600 % 4) ++ '-' ::
        natToString (t - t % 3600 % 4 + 4) ++ ['.', 'e', 's'] ∧
    get_start_utc_from_filename (get_file_path_to_read t) =
      t - t % 3600 % 4 ∧
    get_file_duration (get_file_path_to_read t) = 4 :=
  ⟨by simp [get_file_path_to_read], start_utc_of_path t, duration_of_path t⟩

/-! ### Manifest-builder lemmas -/

theorem mod3600mod4 (c : Nat) : c % 3600 % 4 = c % 4 :=
  Nat.mod_mod_of_dvd c (by norm_num)

theorem start_of_path (c : Nat) :
    get_start_utc_from_filename (get_file_path_to_read c) = c - c % 4 := by
  rw [start_utc_of_path c, mod3600mod4]

theorem prepareGo_step (e fuel current : Nat) (acc : List (List Char))
    (h : current < e) :
    prepareGo e (fuel + 1) current acc =
      prepareGo e fuel (current + 4)
        (if get_file_path_to_read current ∈ acc then acc
         else acc ++ [get_file_path_to_read current]) := by
  have hd : get_file_duration (get_file_path_to_read current) = 4 :=
    duration_of_path current
  simp only [prepareGo, if_pos h, hd]
  norm_num
  rfl

theorem prepareGo_not_lt (e fuel current : Nat) (acc : List (List Char))
    (h : ¬ current < e) : prepareGo e fuel current acc = acc := by
  cases fuel with
  | zero => rfl
  | succ f => simp [prepareGo, h]

theorem prepareGo_extends (e : Nat) :
    ∀ (fuel current : Nat) (acc : List (List Char)),
      ∃ ext, prepareGo e fuel current acc = acc ++ ext := by
  intro fuel
  induction fuel with
  | zero => intro current acc; exact ⟨[], by simp [prepareGo]⟩
  | succ fuel ih =>
    intro current acc
    by_cases h : current < e
    · rw [prepareGo_step e fuel current acc h]
      by_cases hmem : get_file_path_to_read current ∈ acc
      · obtain ⟨ext, hext⟩ := ih (current + 4) acc
        exact ⟨ext, by rw [if_pos hmem, hext]⟩
      · obtain ⟨ext, hext⟩ := ih (current + 4)
          (acc ++ [get_file_path_to_read current])
        exact ⟨[get_file_path_to_read current] ++ ext,
          by rw [if_neg hmem, hext, List.append_assoc]⟩
    · exact ⟨[], by rw [prepareGo_not_lt e _ current acc h, List.append_nil]⟩

theorem prepareGo_mem (e fuel current : Nat) (acc : List (List Char))
    (x : List Char) (hx : x ∈ acc) : x ∈ prepareGo e fuel current acc := by
  obtain ⟨ext, hext⟩ := prepareGo_extends e fuel current acc
  rw [hext]
  exact List.mem_append_left ext hx

theorem prepareGo_nodup (e : Nat) :
    ∀ (fuel current : Nat) (acc : List (List Char)),
      acc.Nodup → (prepareGo e fuel current acc).Nodup := by
  intro fuel
  induction fuel with
  | zero => intro current acc h; simpa [prepareGo] using h
  | succ fuel ih =>
    intro current acc hacc
    by_cases h : current < e
    · rw [prepareGo_step e fuel current acc h]
      by_cases hmem : get_file_path_to_read current ∈ acc
      · rw [if_pos hmem]
        exact ih (current + 4) acc hacc
      · rw [if_neg hmem]
        refine ih (current + 4) _ ?_
        simp [List.nodup_append, hacc, hmem]
    · rw [prepareGo_not_lt e _ current acc h]
      exact hacc

theorem prepareGo_pairwise (e : Nat) :
    ∀ (fuel current : Nat) (acc : List (List Char)),
      (acc.map get_start_utc_from_filename).Pairwise (· < ·) →
      (∀ x ∈ acc, get_start_utc_from_filename x < current - current % 4) →
      ((prepareGo e fuel current acc).map
        get_start_utc_from_filename).Pairwise (· < ·) := by
  intro fuel
  induction fuel with
  | zero => intro current acc hp _; simpa [prepareGo] using hp
  | succ fuel ih =>
    intro current acc hp hbound
    by_cases h : current < e
    · rw [prepareGo_step e fuel current acc h]
      have halign : (current + 4) - (current + 4) % 4 =
          (current - current % 4) + 4 := by
        have h1 : (current + 4) % 4 = current % 4 := Nat.add_mod_right _ _
        have h2 : current % 4 ≤ current := Nat.mod_le _ _
        omega
      by_cases hmem : get_file_path_to_read current ∈ acc
      · rw [if_pos hmem]
        refine ih (current + 4) acc hp (fun x hx => ?_)
        have := hbound x hx
        omega
      · rw [if_neg hmem]
        refine ih (current + 4) _ ?_ ?_
        · rw [List.map_append]
          rw [List.pairwise_append]
          refine ⟨hp, by simp, ?_⟩
          intro a ha b hb
          simp only [List.map_cons, List.map_nil, List.mem_singleton] at hb
          subst hb
          obtain ⟨x, hx, hax⟩ := List.mem_map.mp ha
          subst hax
          rw [start_of_path]
          exact hbound x hx
        · intro x hx
          rcases List.mem_append.mp hx with hx | hx
          · have := hbound x hx
            omega
          · simp only [List.mem_singleton] at hx
            subst hx
            rw [start_of_path]
            omega
    · rw [prepareGo_not_lt e _ current acc h]
      exact hp

theorem prepareGo_coverage (e : Nat) :
    ∀ (fuel current : Nat) (acc : List (List Char)),
      current < e → e - current ≤ fuel →
      ∃ p ∈ prepareGo e fuel current acc,
        e ≤ get_start_utc_from_filename p +
          (get_file_duration p).toNat + current % 4 := by
  intro fuel
  induction fuel with
  | zero => intro current acc h hf; omega
  | succ fuel ih =>
    intro current acc h hf
    rw [prepareGo_step e fuel current acc h]
    by_cases hce : e ≤ current + 4
    · refine ⟨get_file_path_to_read current, ?_, ?_⟩
      · apply prepareGo_mem
        by_cases hmem : get_file_path_to_read current ∈ acc
        · rw [if_pos hmem]; exact hmem
        · rw [if_neg hmem]; exact List.mem_append_right acc (by simp)
      · rw [start_of_path, duration_of_path current]
        have h3 : ((4 : Int)).toNat = 4 := rfl
        rw [h3]
        have h2 : current % 4 ≤ current := Nat.mod_le _ _
        omega
    · have h1 : current + 4 < e := by omega
      obtain ⟨p, hp, hcov⟩ := ih (current + 4) _ h1 (by omega)
      have h2 : (current + 4) % 4 = current % 4 := Nat.add_mod_right _ _
      rw [h2] at hcov
      exact ⟨p, hp, hcov⟩

theorem prepareFileList_head (s e : Nat) (h : s < e) :
    ∃ ext, prepareFileList s e = get_file_path_to_read s :: ext := by
  unfold prepareFileList
  obtain ⟨f, hf⟩ : ∃ f, e - s = f + 1 := ⟨e - s - 1, by omega⟩
  rw [hf, prepareGo_step e f s [] h, if_neg (List.not_mem_nil _),
    List.nil_append]
  obtain ⟨ext, hext⟩ := prepareGo_extends e f (s + 4) [get_file_path_to_read s]
  exact ⟨ext, by rw [hext]; rfl⟩

/-- C5 counterexample.  For the window `[3,5)` the manifest contains a
single entry covering `[0,4)`: every entry's encoded end epoch
(start epoch plus duration) is strictly below the window end 5, so the
covered range does not extend to the window end. -/
theorem manifest_coverage_gap_cex :
    (prepareFileList 3 5 ≠ []) ∧
    (prepareFileList 3 5).all
      (fun p => get_start_utc_from_filename p +
        (get_file_duration p).toNat < 5) = true := by
  decide

/-- C5 amended.  For every window with `start_utc_s < end_utc_s` the
manifest loop terminates and produces a non-empty deduplicated list whose
first entry is the path for the window start, with entry start epochs
strictly increasing (the cursor strictly advances), the first entry's
encoded start epoch at most `start_utc_s`, and coverage extending to at
least `end_utc_s - (start_utc_s mod 3600 mod 4)` (coverage up to the
window end itself fails for 4-second-unaligned starts, see the
counterexample). -/
theorem manifest_properties (s e : Nat) (h : s < e) :
    prepareFileList s e ≠ [] ∧
    (prepareFileList s e).head? = some (get_file_path_to_read s) ∧
    get_start_utc_from_filename (get_file_path_to_read s) ≤ s ∧
    (prepareFileList s e).Nodup ∧
    ((prepareFileList s e).map get_start_utc_from_filename).Pairwise (· < ·) ∧
    ∃ p ∈ prepareFileList s e,
      e - s % 3600 % 4 ≤ get_start_utc_from_filename p +
        (get_file_duration p).toNat := by
  obtain ⟨ext, hext⟩ := prepareFileList_head s e h
  refine ⟨by rw [hext]; simp, by rw [hext]; rfl, ?_, ?_, ?_, ?_⟩
  · rw [start_of_path]
    omega
  · exact prepareGo_nodup e (e - s) s [] List.nodup_nil
  · exact prepareGo_pairwise e (e - s) s [] (by simp) (by simp)
  · obtain ⟨p, hp, hcov⟩ :=
      prepareGo_coverage e (e - s) s [] h (Nat.le_refl _)
    refine ⟨p, hp, ?_⟩
    rw [mod3600mod4]
    omega

theorem manifest_properties_witness :
    3 < 5 ∧
    (prepareFileList 3 5 ≠ [] ∧
    (prepareFileList 3 5).head? = some (get_file_path_to_read 3) ∧
    get_start_utc_from_filename (get_file_path_to_read 3) ≤ 3 ∧
    (prepareFileList 3 5).Nodup ∧
    ((prepareFileList 3 5).map get_start_utc_from_filename).Pairwise (· < ·) ∧
    ∃ p ∈ prepareFileList 3 5,
      5 - 3 % 3600 % 4 ≤ get_start_utc_from_filename p +
        (get_file_duration p).toNat) :=
  ⟨by norm_num, manifest_properties 3 5 (by norm_num)⟩

/-! ### Retrieval-ordering lemmas -/

theorem sorted_perm_unique {α : Type} (r : α → α → Prop) :
    ∀ (l1 l2 : List α), l1.Perm l2 → l1.Pairwise r → l2.Pairwise r →
      (∀ a ∈ l1, ∀ b ∈ l1, r a b → r b a → a = b) → l1 = l2 := by
  intro l1
  induction l1 with
  | nil => intro l2 hp _ _ _; exact (hp.nil_eq).symm ▸ rfl
  | cons a t1 ih =>
    intro l2 hp hs1 hs2 hanti
    cases l2 with
    | nil => exact absurd hp.symm (by simp)
    | cons b t2 =>
      have hab : a = b := by
        by_contra hne
        have ha2 : a ∈ b :: t2 := hp.mem_iff.mp (List.mem_cons_self a t1)
        have hb1 : b ∈ a :: t1 := hp.symm.mem_iff.mp (List.mem_cons_self b t2)
        have hat2 : a ∈ t2 := by
          rcases List.mem_cons.mp ha2 with h | h
          · exact absurd h hne
          · exact h
        have hbt1 : b ∈ t1 := by
          rcases List.mem_cons.mp hb1 with h | h
          · exact absurd h.symm hne
          · exact h
        have hrab : r a b := (List.pairwise_cons.mp hs1).1 b hbt1
        have hrba : r b a := (List.pairwise_cons.mp hs2).1 a hat2
        exact hne (hanti a (List.mem_cons_self a t1) b
          (List.mem_cons_of_mem a hbt1) hrab hrba)
      subst hab
      have ht : t1.Perm t2 := hp.cons_inv
      have := ih t2 ht (List.pairwise_cons.mp hs1).2
        (List.pairwise_cons.mp hs2).2
        (fun x hx y hy hxy hyx => hanti x (List.mem_cons_of_mem a hx) y
          (List.mem_cons_of_mem a hy) hxy hyx)
      rw [this]

/-- C6 counterexample.  Two distinct available files whose names do not
parse (both start epochs default to 0) are kept in completion order by
the stable sort, so the list returned for the same set of files differs
between two completion orders. -/
theorem available_files_tie_order_cex :
    ([['a'], ['b']] : List (List Char)).Perm [['b'], ['a']] ∧
    availableFiles [] [['a'], ['b']] ≠ availableFiles [] [['b'], ['a']] := by
  decide

theorem availableFiles_sorted (fl cs : List (List Char)) :
    (availableFiles fl cs).Pairwise
      (fun a b =>
        get_start_utc_from_filename a ≤ get_start_utc_from_filename b) := by
  set r : List Char → List Char → Prop :=
    fun a b => get_start_utc_from_filename a ≤ get_start_utc_from_filename b
    with hr
  haveI : IsTotal (List Char) r := ⟨fun a b => Nat.le_total _ _⟩
  haveI : IsTrans (List Char) r := ⟨fun _ _ _ hab hbc => Nat.le_trans hab hbc⟩
  simp only [availableFiles]
  by_cases hnil : fl ++ cs = []
  · rw [if_pos hnil]
    exact List.Pairwise.nil
  · rw [if_neg hnil]
    exact List.sorted_insertionSort r _

/-- C6 amended.  The list returned by `download_files_parallel` is always
sorted ascending by `get_start_utc_from_filename` — for every input,
duplicate keys included (first conjunct, hypothesis-free); and whenever
the extracted start epochs are pairwise distinct over the available set
(as for manifest-generated names), the returned list is the same for
every completion order of the concurrent fetches.  With duplicate keys
(e.g. unparseable names both mapping to 0) the stable sort preserves
completion order among ties, so the returned ordering then depends on
completion order (see the counterexample). -/
theorem available_files_order (foundLocal completed completed2 : List (List Char))
    (hperm : completed.Perm completed2)
    (hinj : ∀ a ∈ foundLocal ++ completed, ∀ b ∈ foundLocal ++ completed,
      get_start_utc_from_filename a = get_start_utc_from_filename b → a = b) :
    (∀ fl cs : List (List Char), (availableFiles fl cs).Pairwise
      (fun a b =>
        get_start_utc_from_filename a ≤ get_start_utc_from_filename b)) ∧
    availableFiles foundLocal completed =
      availableFiles foundLocal completed2 := by
  refine ⟨fun fl cs => availableFiles_sorted fl cs, ?_⟩
  set r : List Char → List Char → Prop :=
    fun a b => get_start_utc_from_filename a ≤ get_start_utc_from_filename b
    with hr
  haveI : IsTotal (List Char) r := ⟨fun a b => Nat.le_total _ _⟩
  haveI : IsTrans (List Char) r := ⟨fun _ _ _ hab hbc => Nat.le_trans hab hbc⟩
  have hpermF : (foundLocal ++ completed).Perm (foundLocal ++ completed2) :=
    hperm.append_left foundLocal
  unfold availableFiles
  by_cases hnil : foundLocal ++ completed = []
  · have hnil2 : foundLocal ++ completed2 = [] := by
      rw [hnil] at hpermF
      exact hpermF.nil_eq.symm
    rw [if_pos hnil, if_pos hnil2]
  · have hnil2 : foundLocal ++ completed2 ≠ [] := by
      intro hc
      rw [hc] at hpermF
      exact hnil hpermF.eq_nil
    rw [if_neg hnil, if_neg hnil2]
    have hs1 : (List.insertionSort r (foundLocal ++ completed)).Pairwise r :=
      List.sorted_insertionSort r _
    have hs2 : (List.insertionSort r (foundLocal ++ completed2)).Pairwise r :=
      List.sorted_insertionSort r _
    apply sorted_perm_unique r _ _ ?_ hs1 hs2 ?_
    · exact (List.perm_insertionSort r _).trans
        (hpermF.trans (List.perm_insertionSort r _).symm)
    · intro a ha b hb hab hba
      have ha2 : a ∈ foundLocal ++ completed :=
        (List.mem_insertionSort r).mp ha
      have hb2 : b ∈ foundLocal ++ completed :=
        (List.mem_insertionSort r).mp hb
      exact hinj a ha2 b hb2 (Nat.le_antisymm hab hba)

theorem available_files_order_witness :
    (([['4', '-', '8', '.', 'e', 's'], ['8', '-', '1', '2', '.', 'e', 's']] :
        List (List Char)).Perm
      [['8', '-', '1', '2', '.', 'e', 's'], ['4', '-', '8', '.', 'e', 's']]) ∧
    availableFiles [['0', '-', '4', '.', 'e', 's']]
        [['4', '-', '8', '.', 'e', 's'], ['8', '-', '1', '2', '.', 'e', 's']] =
      availableFiles [['0', '-', '4', '.', 'e', 's']]
        [['8', '-', '1', '2', '.', 'e', 's'], ['4', '-', '8', '.', 'e', 's']] :=
  ⟨by decide,
    (available_files_order [['0', '-', '4', '.', 'e', 's']]
      [['4', '-', '8', '.', 'e', 's'], ['8', '-', '1', '2', '.', 'e', 's']]
      [['8', '-', '1', '2', '.', 'e', 's'], ['4', '-', '8', '.', 'e', 's']]
      (by decide) (by decide)).2⟩

/-! ### Progress-store theorem -/

/-- C7.  `load_progress_state` returns the empty snapshot on a missing
file, on malformed JSON and on any other read error, and the decoded
snapshot on success; `save_progress_state` reports `False` on a write
failure and `True` on success.  Every arm of both functions returns
normally (the embedding is total), modelling that no exception
propagates to the caller. -/
theorem progress_state_error_handling :
    load_progress_state .fileNotFound = [] ∧
    load_progress_state .invalidJson = [] ∧
    load_progress_state .otherError = [] ∧
    (∀ d, load_progress_state (.success d) = d) ∧
    save_progress_state .writeError = false ∧
    save_progress_state .writeOk = true :=
  ⟨rfl, rfl, rfl, fun _ => rfl, rfl, rfl⟩

/-! ### S3 path-join theorems -/

/-- C8 counterexample.  With a relative path carrying two leading
separators, `get_s3_path` strips only one of them, leaving two
separators at the junction instead of exactly one. -/
theorem s3_join_multi_sep_cex :
    get_s3_path ['p'] ['/', '/', 'a'] ≠ specJoinOneSep ['p'] ['/', '/', 'a'] ∧
    get_s3_path ['p'] ['/', '/', 'a'] = ['p', '/', '/', 'a'] := by
  decide

/-- C8 amended.  `get_s3_path` appends a separator to the prefix only
when one is missing and strips exactly one leading separator from the
relative path; consequently the junction holds exactly one separator
whenever the prefix ends with at most one `/` and the relative path
starts with at most one `/` (with more, extra separators survive, see
the counterexample). -/
theorem s3_join_exactly_one_sep (pfx relPath : List Char)
    (hp : pfx.reverse.take 2 ≠ ['/', '/'])
    (hr : relPath.take 2 ≠ ['/', '/']) :
    get_s3_path pfx relPath = specJoinOneSep pfx relPath := by
  unfold get_s3_path specJoinOneSep
  have hrel : (if relPath.head? = some '/' then relPath.tail else relPath) =
      relPath.dropWhile (fun c => c = '/') := by
    cases relPath with
    | nil => simp
    | cons c t =>
      by_cases hc : c = '/'
      · subst hc
        rw [if_pos (show ('/' :: t).head? = some '/' by rfl)]
        rw [List.dropWhile_cons, if_pos (by decide)]
        cases t with
        | nil => simp
        | cons d t2 =>
          have hd : d ≠ '/' := by
            intro hd
            subst hd
            exact hr rfl
          rw [List.dropWhile_cons, if_neg (by simp [hd])]
          rfl
      · rw [if_neg (by simp [hc]), List.dropWhile_cons, if_neg (by simp [hc])]
  have hpre : (if pfx.getLast? = some '/' then pfx else pfx ++ ['/']) =
      (pfx.reverse.dropWhile (fun c => c = '/')).reverse ++ ['/'] := by
    rcases hrev : pfx.reverse with _ | ⟨c, t⟩
    · have : pfx = [] := by
        have := congrArg List.reverse hrev
        simpa using this
      subst this
      simp
    · have hpfx : pfx = t.reverse ++ [c] := by
        have := congrArg List.reverse hrev
        simpa using this
      have hlast : pfx.getLast? = some c := by
        rw [hpfx]
        exact List.getLast?_concat _
      by_cases hc : c = '/'
      · subst hc
        rw [if_pos hlast, List.dropWhile_cons, if_pos (by decide)]
        have ht : t.dropWhile (fun c => c = '/') = t := by
          cases t with
          | nil => simp
          | cons d t2 =>
            have hd : d ≠ '/' := by
              intro hd
              subst hd
              rw [hrev] at hp
              exact hp rfl
            rw [List.dropWhile_cons, if_neg (by simp [hd])]
        rw [ht, hpfx]
      · rw [if_neg (by rw [hlast]; simp [hc]), List.dropWhile_cons,
          if_neg (by simp [hc])]
        have : ((c :: t).reverse) = pfx := by
          rw [hpfx]
          simp
        rw [this]
  rw [hrel, hpre, List.append_assoc]
  rfl

theorem s3_join_exactly_one_sep_witness :
    (['b', '/'] : List Char).reverse.take 2 ≠ ['/', '/'] ∧
    (['/', 'x'] : List Char).take 2 ≠ ['/', '/'] ∧
    get_s3_path ['b', '/'] ['/', 'x'] = specJoinOneSep ['b', '/'] ['/', 'x'] :=
  ⟨by decide, by decide,
    s3_join_exactly_one_sep ['b', '/'] ['/', 'x'] (by decide) (by decide)⟩

end InputRec
